import Mathlib

/-!
Verification of the balance computation and debt-settlement core of
`ExpenseSplitter.py` (classes `ExpenseManager.calculate_balances` and
`ExpenseManager.get_settlement_plan`).

Currency values are modelled as exact rationals (`ℚ`); the source's
floating-point epsilon `0.01` becomes `eps = 1/100`.
-/

namespace ExpenseSplitter

/-- A balance entry, mirroring the Python dict entry
`person_id ↦ {'name': name, 'balance': b}` flattened to a triple
`(person_id, name, value)`; the same triple shape is used for the
`(person_id, name, magnitude)` tuples in the debtor/creditor lists. -/
abbrev Ent : Type := Nat × String × ℚ

/-- A settlement transaction tuple
`(debtor_id, debtor_name, creditor_id, creditor_name, amount)`,
exactly the tuple appended to `transactions` in `get_settlement_plan`. -/
abbrev Txn : Type := Nat × String × Nat × String × ℚ

/-- An expense row together with its split rows, as stored in the
`expense` and `expense_split` tables. -/
structure Expense where
  description : String
  amount : ℚ
  date : String
  paidBy : Nat
  splits : List (Nat × ℚ)

/-- The epsilon used by the source for approximate equality: `0.01`. -/
def eps : ℚ := 1 / 100

/-- `balances = {}; for person in persons: balances[person_id] = {'name': …, 'balance': 0}`. -/
def initBalances (persons : List (Nat × String)) : List Ent :=
  persons.map (fun p => (p.1, p.2, (0 : ℚ)))

/-- `balances[pid]['balance'] += amt`: add `amt` to the balance of every
entry whose key is `pid` (a Python dict has at most one such entry). -/
def addToBalance (bs : List Ent) (pid : Nat) (amt : ℚ) : List Ent :=
  bs.map (fun b => if b.1 = pid then (b.1, b.2.1, b.2.2 + amt) else b)

/-- `ExpenseManager.calculate_balances`: start every known person at 0,
add to each payer's balance the amounts they paid, then subtract from
each person's balance their split shares.  The source lets SQL `GROUP BY`
pre-aggregate the per-person totals before adding them; adding the rows
one by one yields the same balances because `ℚ` addition is associative
and commutative. -/
def calculate_balances (persons : List (Nat × String)) (expenses : List Expense) :
    List Ent :=
  let bs0 := initBalances persons
  let bs1 := expenses.foldl (fun acc e => addToBalance acc e.paidBy e.amount) bs0
  (expenses.flatMap (fun e => e.splits)).foldl
    (fun acc s => addToBalance acc s.1 (-s.2)) bs1

/-- Sum of the values of the update operations `(key, value)` whose key is `k`;
the total amount that `addToBalance` folds add to the entry with key `k`. -/
def keySum (k : Nat) (ops : List (Nat × ℚ)) : ℚ :=
  ((ops.filter (fun op => op.1 = k)).map (fun op => op.2)).sum

/-- Spec-side measure: total amount paid by person `pid` across all expenses. -/
def totalPaid (pid : Nat) (expenses : List Expense) : ℚ :=
  ((expenses.filter (fun e => e.paidBy = pid)).map Expense.amount).sum

/-- Spec-side measure: total of person `pid`'s split shares across all expenses. -/
def totalShare (pid : Nat) (expenses : List Expense) : ℚ :=
  (((expenses.flatMap (fun e => e.splits)).filter (fun s => s.1 = pid)).map
    (fun s => s.2)).sum

/-- Referential integrity of the input (enforced upstream per the spec):
every payer and every split person is a known person. -/
def RefIntegrity (persons : List (Nat × String)) (expenses : List Expense) : Prop :=
  ∀ e ∈ expenses, e.paidBy ∈ persons.map Prod.fst ∧
    ∀ s ∈ e.splits, s.1 ∈ persons.map Prod.fst

/-- The debtor list built by `get_settlement_plan`:
entries with `balance < 0`, recorded as `(id, name, abs(balance))`. -/
def debtorsOf (bs : List Ent) : List Ent :=
  (bs.filter (fun b => b.2.2 < 0)).map (fun b => (b.1, b.2.1, -b.2.2))

/-- The creditor list built by `get_settlement_plan`:
entries with `balance > 0`, recorded as `(id, name, balance)`. -/
def creditorsOf (bs : List Ent) : List Ent :=
  (bs.filter (fun b => 0 < b.2.2)).map (fun b => (b.1, b.2.1, b.2.2))

/-- Insert `x` into a list sorted descending by the third component,
placing `x` before the first element whose amount is not larger: the
stable position, matching Python's stable `list.sort(key=…, reverse=True)`. -/
def insertDesc (x : Ent) : List Ent → List Ent
  | [] => [x]
  | y :: ys => if x.2.2 < y.2.2 then y :: insertDesc x ys else x :: y :: ys

/-- Stable descending insertion sort by the third tuple component.
A stable sort's output is uniquely determined by key and original order,
so this agrees with the source's `sort(key=lambda x: x[2], reverse=True)`. -/
def sortDesc : List Ent → List Ent
  | [] => []
  | x :: xs => insertDesc x (sortDesc xs)

/-- The two-cursor settlement walk of `get_settlement_plan` (lines 269–289),
with an explicit iteration budget (`fuel`).  The Python loop
`while i < len(debtors) and j < len(creditors)` keeps cursors `i`, `j` into
the sorted lists and mutates the current entry to track its remaining
magnitude; here the suffixes from the cursors on are passed, the mutated
entry becomes a replaced head, and one unit of fuel is spent per iteration.
`none` means the fuel ran out while both lists were still nonempty;
`settleLoopF_some` below proves that `len(debtors) + len(creditors)` units
of fuel always suffice, because every iteration strictly advances at least
one cursor. -/
def settleLoopF : Nat → List Ent → List Ent → Option (List Txn)
  | _, [], _ => some []
  | _, _ :: _, [] => some []
  | 0, _ :: _, _ :: _ => none
  | fuel + 1, d :: ds2, c :: cs2 =>
    if |d.2.2 - c.2.2| < eps then
      (settleLoopF fuel ds2 cs2).map
        (fun r => (d.1, d.2.1, c.1, c.2.1, d.2.2) :: r)
    else if d.2.2 < c.2.2 then
      (settleLoopF fuel ds2 ((c.1, c.2.1, c.2.2 - d.2.2) :: cs2)).map
        (fun r => (d.1, d.2.1, c.1, c.2.1, d.2.2) :: r)
    else
      (settleLoopF fuel ((d.1, d.2.1, d.2.2 - c.2.2) :: ds2) cs2).map
        (fun r => (d.1, d.2.1, c.1, c.2.1, c.2.2) :: r)

/-- The settlement walk itself: run the loop with the (always sufficient,
by `settleLoopF_some`) iteration budget `len(debtors) + len(creditors)`. -/
def settleLoop (ds cs : List Ent) : List Txn :=
  (settleLoopF (ds.length + cs.length) ds cs).getD []

/-- The body of `get_settlement_plan` after `balances = self.calculate_balances()`:
partition into debtors and creditors, sort both descending, walk. -/
def plan_from_balances (bs : List Ent) : List Txn :=
  settleLoop (sortDesc (debtorsOf bs)) (sortDesc (creditorsOf bs))

/-- `ExpenseManager.get_settlement_plan`: compute balances, then plan. -/
def get_settlement_plan (persons : List (Nat × String)) (expenses : List Expense) :
    List Txn :=
  plan_from_balances (calculate_balances persons expenses)

/-- Sum of the third components (balances or magnitudes) of a list of entries. -/
def sumAmt (l : List Ent) : ℚ := (l.map (fun e => e.2.2)).sum

/-- Sum of the amounts of a list of transactions. -/
def txSum (ts : List Txn) : ℚ := (ts.map (fun t => t.2.2.2.2)).sum

/-- Sum of all strictly positive balances of a balance list. -/
def posSum (bs : List Ent) : ℚ := sumAmt (creditorsOf bs)

/-- Sum of all signed balances of a balance list. -/
def balSum (bs : List Ent) : ℚ := sumAmt bs

/-- Total amount person `p` pays as debtor across a transaction list. -/
def outOf (p : Nat) (ts : List Txn) : ℚ :=
  ((ts.filter (fun t => t.1 = p)).map (fun t => t.2.2.2.2)).sum

/-- Total amount person `p` receives as creditor across a transaction list. -/
def inOf (p : Nat) (ts : List Txn) : ℚ :=
  ((ts.filter (fun t => t.2.2.1 = p)).map (fun t => t.2.2.2.2)).sum

/-- Total magnitude recorded for person `p` in an entry list. -/
def amtOf (p : Nat) (l : List Ent) : ℚ :=
  ((l.filter (fun e => e.1 = p)).map (fun e => e.2.2)).sum

/-! ### Characterization of the balance computation -/

theorem keySum_nil (k : Nat) : keySum k [] = 0 := rfl

theorem keySum_cons (k : Nat) (op : Nat × ℚ) (ops : List (Nat × ℚ)) :
    keySum k (op :: ops) = (if op.1 = k then op.2 else 0) + keySum k ops := by
  unfold keySum
  by_cases h : op.1 = k
  · simp [List.filter_cons, h]
  · simp [List.filter_cons, h]

theorem foldl_addToBalance {α : Type} (key : α → Nat) (val : α → ℚ)
    (l : List α) (bs : List Ent) :
    l.foldl (fun acc x => addToBalance acc (key x) (val x)) bs
      = bs.map (fun b => (b.1, b.2.1, b.2.2 + keySum b.1 (l.map (fun x => (key x, val x))))) := by
  induction l generalizing bs with
  | nil =>
    simp only [List.foldl_nil, List.map_nil, keySum_nil, add_zero]
    rw [show (fun b : Ent => (b.1, b.2.1, b.2.2)) = id from ?_, List.map_id]
    funext b
    simp
  | cons x l ih =>
    rw [List.foldl_cons, ih]
    unfold addToBalance
    rw [List.map_map]
    refine List.map_congr_left ?_
    intro b _
    by_cases h : b.1 = key x
    · simp only [Function.comp, if_pos h, List.map_cons, keySum_cons]
      rw [if_pos h.symm]
      ring_nf
    · simp only [Function.comp, if_neg h, List.map_cons, keySum_cons]
      rw [if_neg (fun hc => h hc.symm), zero_add]

theorem totalPaid_eq_keySum (pid : Nat) (expenses : List Expense) :
    totalPaid pid expenses
      = keySum pid (expenses.map (fun e => (e.paidBy, e.amount))) := by
  unfold totalPaid keySum
  rw [List.filter_map, List.map_map]
  rfl

theorem totalShare_eq_keySum (pid : Nat) (expenses : List Expense) :
    -totalShare pid expenses
      = keySum pid ((expenses.flatMap (fun e => e.splits)).map
          (fun s => (s.1, -s.2))) := by
  unfold totalShare keySum
  rw [List.filter_map, List.map_map]
  rw [show ((fun s : Nat × ℚ => s.2) ∘ fun s : Nat × ℚ => (s.1, -s.2))
        = (fun s : Nat × ℚ => -s.2) from rfl]
  rw [show (((fun op : Nat × ℚ => decide (op.1 = pid)) ∘ fun s : Nat × ℚ => (s.1, -s.2)))
        = (fun s : Nat × ℚ => decide (s.1 = pid)) from rfl]
  rw [List.sum_neg]
  congr 1
  rw [List.map_map]
  rfl

/-- Full characterization of `calculate_balances`: one output entry per input
person, in order, carrying `totalPaid − totalShare` as its balance. -/
theorem calculate_balances_eq (persons : List (Nat × String)) (expenses : List Expense) :
    calculate_balances persons expenses
      = persons.map (fun p =>
          (p.1, p.2, totalPaid p.1 expenses - totalShare p.1 expenses)) := by
  simp only [calculate_balances]
  rw [foldl_addToBalance (fun e : Expense => e.paidBy) (fun e : Expense => e.amount)]
  rw [foldl_addToBalance (fun s : Nat × ℚ => s.1) (fun s : Nat × ℚ => -s.2)]
  unfold initBalances
  rw [List.map_map, List.map_map]
  refine List.map_congr_left ?_
  intro p _
  simp only [Function.comp]
  rw [← totalPaid_eq_keySum, ← totalShare_eq_keySum]
  ring_nf

/-! ### Sum lemmas for the zero-sum invariant -/

theorem sum_if_key_zero {persons : List (Nat × String)} {k : Nat} (a : ℚ)
    (hk : k ∉ persons.map Prod.fst) :
    (persons.map (fun p => if k = p.1 then a else 0)).sum = 0 := by
  induction persons with
  | nil => simp
  | cons q qs ih =>
    simp only [List.map_cons, List.mem_cons, not_or] at hk ⊢
    rw [List.sum_cons, if_neg hk.1, ih hk.2, add_zero]

theorem sum_if_key_one {persons : List (Nat × String)} {k : Nat} (a : ℚ)
    (hnd : (persons.map Prod.fst).Nodup) (hk : k ∈ persons.map Prod.fst) :
    (persons.map (fun p => if k = p.1 then a else 0)).sum = a := by
  induction persons with
  | nil => simp at hk
  | cons q qs ih =>
    simp only [List.map_cons, List.nodup_cons] at hnd
    rcases List.mem_cons.mp hk with hq | hq
    · rw [List.map_cons, List.sum_cons, if_pos hq,
        sum_if_key_zero a (by rw [hq]; exact hnd.1), add_zero]
    · have hne : k ≠ q.1 := fun h => hnd.1 (h ▸ hq)
      rw [List.map_cons, List.sum_cons, if_neg hne, ih hnd.2 hq, zero_add]

theorem sum_map_keySum {persons : List (Nat × String)} {ops : List (Nat × ℚ)}
    (hnd : (persons.map Prod.fst).Nodup)
    (hcov : ∀ op ∈ ops, op.1 ∈ persons.map Prod.fst) :
    (persons.map (fun p => keySum p.1 ops)).sum = (ops.map (fun op => op.2)).sum := by
  induction ops with
  | nil => simp [keySum_nil]
  | cons op ops ih =>
    have h1 : (persons.map (fun p => keySum p.1 (op :: ops))).sum
        = (persons.map (fun p => (if op.1 = p.1 then op.2 else 0) + keySum p.1 ops)).sum := by
      refine congrArg _ (List.map_congr_left ?_)
      intro p _
      rw [keySum_cons]
    rw [h1, List.sum_map_add,
      sum_if_key_one op.2 hnd (hcov op (List.mem_cons_self op ops)),
      ih (fun o ho => hcov o (List.mem_cons_of_mem op ho)),
      List.map_cons, List.sum_cons]

theorem sum_map_snd_flatMap (expenses : List Expense) :
    (((expenses.flatMap (fun e => e.splits)).map (fun s => s.2)).sum)
      = (expenses.map (fun e => (e.splits.map (fun s => s.2)).sum)).sum := by
  induction expenses with
  | nil => simp
  | cons e es ih =>
    rw [List.flatMap_cons, List.map_append, List.sum_append, ih,
      List.map_cons, List.sum_cons]

theorem sum_map_sub_split {α : Type} (l : List α) (f g : α → ℚ) :
    (l.map (fun x => f x - g x)).sum = (l.map f).sum - (l.map g).sum := by
  induction l with
  | nil => simp
  | cons x xs ih =>
    simp only [List.map_cons, List.sum_cons, ih]
    ring

/-! ### Equations and basic facts of the settlement walk -/

theorem settleLoopF_nil_left (fuel : Nat) (cs : List Ent) :
    settleLoopF fuel [] cs = some [] := by
  cases fuel <;> rfl

theorem settleLoopF_nil_right (fuel : Nat) (d : Ent) (ds : List Ent) :
    settleLoopF fuel (d :: ds) [] = some [] := by
  cases fuel <;> rfl

/-- The result of the fueled walk does not depend on the fuel, as long as
the fuel covers the total length of the two lists. -/
theorem settleLoopF_congr (n : Nat) : ∀ (ds cs : List Ent) (f1 f2 : Nat),
    ds.length + cs.length ≤ n → ds.length + cs.length ≤ f1 →
    ds.length + cs.length ≤ f2 →
    settleLoopF f1 ds cs = settleLoopF f2 ds cs := by
  induction n with
  | zero =>
    intro ds cs f1 f2 hn _ _
    match ds, cs with
    | [], cs => rw [settleLoopF_nil_left, settleLoopF_nil_left]
    | d :: ds, [] => rw [settleLoopF_nil_right, settleLoopF_nil_right]
    | d :: ds, c :: cs => simp at hn
  | succ n ih =>
    intro ds cs f1 f2 hn h1 h2
    match ds, cs with
    | [], cs => rw [settleLoopF_nil_left, settleLoopF_nil_left]
    | d :: ds, [] => rw [settleLoopF_nil_right, settleLoopF_nil_right]
    | d :: ds, c :: cs =>
      simp only [List.length_cons] at hn h1 h2
      obtain ⟨f1x, rfl⟩ : ∃ k, f1 = k + 1 := ⟨f1 - 1, by omega⟩
      obtain ⟨f2x, rfl⟩ : ∃ k, f2 = k + 1 := ⟨f2 - 1, by omega⟩
      rw [settleLoopF, settleLoopF]
      by_cases hc1 : |d.2.2 - c.2.2| < eps
      · rw [if_pos hc1, if_pos hc1,
          ih ds cs f1x f2x (by omega) (by omega) (by omega)]
      · by_cases hc2 : d.2.2 < c.2.2
        · rw [if_neg hc1, if_neg hc1, if_pos hc2, if_pos hc2,
            ih ds ((c.1, c.2.1, c.2.2 - d.2.2) :: cs) f1x f2x
              (by simp only [List.length_cons]; omega)
              (by simp only [List.length_cons]; omega)
              (by simp only [List.length_cons]; omega)]
        · rw [if_neg hc1, if_neg hc1, if_neg hc2, if_neg hc2,
            ih ((d.1, d.2.1, d.2.2 - c.2.2) :: ds) cs f1x f2x
              (by simp only [List.length_cons]; omega)
              (by simp only [List.length_cons]; omega)
              (by simp only [List.length_cons]; omega)]

/-- With fuel at least the total length of the two lists, the loop finishes:
each iteration spends one unit of fuel and strictly shortens the combined
remaining work. -/
theorem settleLoopF_some (fuel : Nat) : ∀ (ds cs : List Ent),
    ds.length + cs.length ≤ fuel → ∃ r, settleLoopF fuel ds cs = some r := by
  induction fuel with
  | zero =>
    intro ds cs hn
    match ds, cs with
    | [], cs => exact ⟨[], settleLoopF_nil_left 0 cs⟩
    | d :: ds, [] => exact ⟨[], settleLoopF_nil_right 0 d ds⟩
    | d :: ds, c :: cs => simp at hn
  | succ fuel ih =>
    intro ds cs hn
    match ds, cs with
    | [], cs => exact ⟨[], settleLoopF_nil_left _ cs⟩
    | d :: ds, [] => exact ⟨[], settleLoopF_nil_right _ d ds⟩
    | d :: ds, c :: cs =>
      simp only [List.length_cons] at hn
      rw [settleLoopF]
      by_cases hc1 : |d.2.2 - c.2.2| < eps
      · obtain ⟨r, hr⟩ := ih ds cs (by omega)
        exact ⟨_, by rw [if_pos hc1, hr]; rfl⟩
      · by_cases hc2 : d.2.2 < c.2.2
        · obtain ⟨r, hr⟩ := ih ds ((c.1, c.2.1, c.2.2 - d.2.2) :: cs)
            (by simp only [List.length_cons]; omega)
          exact ⟨_, by rw [if_neg hc1, if_pos hc2, hr]; rfl⟩
        · obtain ⟨r, hr⟩ := ih ((d.1, d.2.1, d.2.2 - c.2.2) :: ds) cs
            (by simp only [List.length_cons]; omega)
          exact ⟨_, by rw [if_neg hc1, if_neg hc2, hr]; rfl⟩

/-- The fueled walk agrees with `settleLoop` whenever the fuel is at least
the total length of the two lists. -/
theorem settleLoopF_eq_some (fuel : Nat) (ds cs : List Ent)
    (hfuel : ds.length + cs.length ≤ fuel) :
    settleLoopF fuel ds cs = some (settleLoop ds cs) := by
  obtain ⟨r, hr⟩ := settleLoopF_some (ds.length + cs.length) ds cs le_rfl
  unfold settleLoop
  rw [hr, settleLoopF_congr (ds.length + cs.length) ds cs fuel
    (ds.length + cs.length) le_rfl hfuel le_rfl, hr]
  rfl

theorem settleLoop_nil_left (cs : List Ent) : settleLoop [] cs = [] := by
  unfold settleLoop
  rw [settleLoopF_nil_left]
  rfl

theorem settleLoop_nil_right (d : Ent) (ds : List Ent) :
    settleLoop (d :: ds) [] = [] := by
  unfold settleLoop
  rw [settleLoopF_nil_right]
  rfl

theorem settleLoop_cons_eq {d c : Ent} (ds cs : List Ent)
    (h : |d.2.2 - c.2.2| < eps) :
    settleLoop (d :: ds) (c :: cs)
      = (d.1, d.2.1, c.1, c.2.1, d.2.2) :: settleLoop ds cs := by
  unfold settleLoop
  rw [show (d :: ds).length + (c :: cs).length = ds.length + cs.length + 1 + 1 by
    simp only [List.length_cons]; omega]
  rw [settleLoopF, if_pos h,
    settleLoopF_eq_some (ds.length + cs.length + 1) ds cs (by omega)]
  rfl

theorem settleLoop_cons_lt {d c : Ent} (ds cs : List Ent)
    (h1 : ¬ |d.2.2 - c.2.2| < eps) (h2 : d.2.2 < c.2.2) :
    settleLoop (d :: ds) (c :: cs)
      = (d.1, d.2.1, c.1, c.2.1, d.2.2)
          :: settleLoop ds ((c.1, c.2.1, c.2.2 - d.2.2) :: cs) := by
  unfold settleLoop
  rw [show (d :: ds).length + (c :: cs).length = ds.length + cs.length + 1 + 1 by
    simp only [List.length_cons]; omega]
  rw [settleLoopF, if_neg h1, if_pos h2,
    settleLoopF_eq_some (ds.length + cs.length + 1) ds
      ((c.1, c.2.1, c.2.2 - d.2.2) :: cs) (by simp only [List.length_cons]; omega)]
  rw [show ds.length + ((c.1, c.2.1, c.2.2 - d.2.2) :: cs).length
      = ds.length + cs.length + 1 by simp only [List.length_cons]; omega]
  rfl

theorem settleLoop_cons_gt {d c : Ent} (ds cs : List Ent)
    (h1 : ¬ |d.2.2 - c.2.2| < eps) (h2 : ¬ d.2.2 < c.2.2) :
    settleLoop (d :: ds) (c :: cs)
      = (d.1, d.2.1, c.1, c.2.1, c.2.2)
          :: settleLoop ((d.1, d.2.1, d.2.2 - c.2.2) :: ds) cs := by
  unfold settleLoop
  rw [show (d :: ds).length + (c :: cs).length = ds.length + cs.length + 1 + 1 by
    simp only [List.length_cons]; omega]
  rw [settleLoopF, if_neg h1, if_neg h2,
    settleLoopF_eq_some (ds.length + cs.length + 1)
      ((d.1, d.2.1, d.2.2 - c.2.2) :: ds) cs (by simp only [List.length_cons]; omega)]
  rw [show ((d.1, d.2.1, d.2.2 - c.2.2) :: ds).length + cs.length
      = ds.length + cs.length + 1 by simp only [List.length_cons]; omega]
  rw [settleLoopF_eq_some (ds.length + cs.length + 1)
    ((d.1, d.2.1, d.2.2 - c.2.2) :: ds) cs (by simp only [List.length_cons]; omega)]
  rfl

/-- Induction principle following the recursion structure of the walk. -/
theorem settleLoop_ind (motive : List Ent → List Ent → Prop)
    (hnl : ∀ cs, motive [] cs)
    (hnr : ∀ d ds, motive (d :: ds) [])
    (heq : ∀ d c ds cs, |d.2.2 - c.2.2| < eps →
      motive ds cs → motive (d :: ds) (c :: cs))
    (hlt : ∀ d c ds cs, ¬ |d.2.2 - c.2.2| < eps → d.2.2 < c.2.2 →
      motive ds ((c.1, c.2.1, c.2.2 - d.2.2) :: cs) → motive (d :: ds) (c :: cs))
    (hgt : ∀ d c ds cs, ¬ |d.2.2 - c.2.2| < eps → ¬ d.2.2 < c.2.2 →
      motive ((d.1, d.2.1, d.2.2 - c.2.2) :: ds) cs → motive (d :: ds) (c :: cs)) :
    ∀ ds cs, motive ds cs := by
  have key : ∀ (n : Nat) (ds cs : List Ent), ds.length + cs.length ≤ n →
      motive ds cs := by
    intro n
    induction n with
    | zero =>
      intro ds cs hn
      match ds, cs with
      | [], cs => exact hnl cs
      | d :: ds, [] => exact hnr d ds
      | d :: ds, c :: cs => simp at hn
    | succ n ih =>
      intro ds cs hn
      match ds, cs with
      | [], cs => exact hnl cs
      | d :: ds, [] => exact hnr d ds
      | d :: ds, c :: cs =>
        simp only [List.length_cons] at hn
        by_cases hc1 : |d.2.2 - c.2.2| < eps
        · exact heq d c ds cs hc1 (ih ds cs (by omega))
        · by_cases hc2 : d.2.2 < c.2.2
          · exact hlt d c ds cs hc1 hc2 (ih ds ((c.1, c.2.1, c.2.2 - d.2.2) :: cs)
              (by simp only [List.length_cons]; omega))
          · exact hgt d c ds cs hc1 hc2 (ih ((d.1, d.2.1, d.2.2 - c.2.2) :: ds) cs
              (by simp only [List.length_cons]; omega))
  exact fun ds cs => key (ds.length + cs.length) ds cs le_rfl

/-! ### Pointwise equations for the measures -/

theorem sumAmt_nil : sumAmt [] = 0 := rfl

theorem sumAmt_cons (x : Ent) (l : List Ent) :
    sumAmt (x :: l) = x.2.2 + sumAmt l := by
  unfold sumAmt
  rw [List.map_cons, List.sum_cons]

theorem txSum_nil : txSum [] = 0 := rfl

theorem txSum_cons (t : Txn) (ts : List Txn) :
    txSum (t :: ts) = t.2.2.2.2 + txSum ts := by
  unfold txSum
  rw [List.map_cons, List.sum_cons]

theorem outOf_nil (p : Nat) : outOf p [] = 0 := rfl

theorem outOf_cons (p : Nat) (t : Txn) (ts : List Txn) :
    outOf p (t :: ts) = (if t.1 = p then t.2.2.2.2 else 0) + outOf p ts := by
  unfold outOf
  by_cases h : t.1 = p
  · simp [List.filter_cons, h]
  · simp [List.filter_cons, h]

theorem inOf_nil (p : Nat) : inOf p [] = 0 := rfl

theorem inOf_cons (p : Nat) (t : Txn) (ts : List Txn) :
    inOf p (t :: ts) = (if t.2.2.1 = p then t.2.2.2.2 else 0) + inOf p ts := by
  unfold inOf
  by_cases h : t.2.2.1 = p
  · simp [List.filter_cons, h]
  · simp [List.filter_cons, h]

theorem amtOf_nil (p : Nat) : amtOf p [] = 0 := rfl

theorem amtOf_cons (p : Nat) (x : Ent) (l : List Ent) :
    amtOf p (x :: l) = (if x.1 = p then x.2.2 else 0) + amtOf p l := by
  unfold amtOf
  by_cases h : x.1 = p
  · simp [List.filter_cons, h]
  · simp [List.filter_cons, h]

theorem sumAmt_nonneg {l : List Ent} (h : ∀ e ∈ l, 0 ≤ e.2.2) :
    0 ≤ sumAmt l := by
  induction l with
  | nil => rw [sumAmt_nil]
  | cons x xs ih =>
    rw [sumAmt_cons]
    have hx := h x (List.mem_cons_self x xs)
    have hxs := ih (fun e he => h e (List.mem_cons_of_mem x he))
    linarith

theorem amtOf_nonneg {l : List Ent} (p : Nat) (h : ∀ e ∈ l, 0 ≤ e.2.2) :
    0 ≤ amtOf p l := by
  induction l with
  | nil => rw [amtOf_nil]
  | cons x xs ih =>
    rw [amtOf_cons]
    have hx := h x (List.mem_cons_self x xs)
    have hxs := ih (fun e he => h e (List.mem_cons_of_mem x he))
    by_cases hp : x.1 = p
    · rw [if_pos hp]; linarith
    · rw [if_neg hp]; linarith

theorem amtOf_le_sumAmt {l : List Ent} (p : Nat) (h : ∀ e ∈ l, 0 ≤ e.2.2) :
    amtOf p l ≤ sumAmt l := by
  induction l with
  | nil => rw [amtOf_nil, sumAmt_nil]
  | cons x xs ih =>
    rw [amtOf_cons, sumAmt_cons]
    have hx := h x (List.mem_cons_self x xs)
    have hxs := ih (fun e he => h e (List.mem_cons_of_mem x he))
    by_cases hp : x.1 = p
    · rw [if_pos hp]; linarith
    · rw [if_neg hp]; linarith

theorem eps_pos : (0 : ℚ) < eps := by norm_num [eps]

/-! ### The sort is a permutation -/

theorem insertDesc_perm (x : Ent) (l : List Ent) :
    (insertDesc x l).Perm (x :: l) := by
  induction l with
  | nil => exact List.Perm.refl _
  | cons y ys ih =>
    unfold insertDesc
    by_cases h : x.2.2 < y.2.2
    · rw [if_pos h]
      exact ((ih.cons y).trans (List.Perm.swap x y ys)).symm.symm
    · rw [if_neg h]

theorem sortDesc_perm (l : List Ent) : (sortDesc l).Perm l := by
  induction l with
  | nil => exact List.Perm.refl _
  | cons x xs ih =>
    exact (insertDesc_perm x (sortDesc xs)).trans (ih.cons x)

/-! ### Inductive invariants of the settlement walk -/

/-- Every transaction emitted by the walk has a strictly positive amount,
provided all magnitudes in both working lists are strictly positive. -/
theorem settleLoop_amounts_pos : ∀ (ds cs : List Ent),
    (∀ e ∈ ds, 0 < e.2.2) → (∀ e ∈ cs, 0 < e.2.2) →
    ∀ t ∈ settleLoop ds cs, 0 < t.2.2.2.2 := by
  refine settleLoop_ind
    (fun ds cs => (∀ e ∈ ds, 0 < e.2.2) → (∀ e ∈ cs, 0 < e.2.2) →
      ∀ t ∈ settleLoop ds cs, 0 < t.2.2.2.2) ?_ ?_ ?_ ?_ ?_
  · intro cs _ _ t ht
    rw [settleLoop_nil_left] at ht
    simp at ht
  · intro d ds _ _ t ht
    rw [settleLoop_nil_right] at ht
    simp at ht
  · intro d c ds cs h ih hd hc t ht
    rw [settleLoop_cons_eq ds cs h] at ht
    rcases List.mem_cons.mp ht with rfl | ht
    · exact hd d (List.mem_cons_self d ds)
    · exact ih (fun e he => hd e (List.mem_cons_of_mem d he))
        (fun e he => hc e (List.mem_cons_of_mem c he)) t ht
  · intro d c ds cs h1 h2 ih hd hc t ht
    rw [settleLoop_cons_lt ds cs h1 h2] at ht
    rcases List.mem_cons.mp ht with rfl | ht
    · exact hd d (List.mem_cons_self d ds)
    · refine ih (fun e he => hd e (List.mem_cons_of_mem d he)) ?_ t ht
      intro e he
      rcases List.mem_cons.mp he with rfl | he
      · have := hd d (List.mem_cons_self d ds)
        simp only
        linarith
      · exact hc e (List.mem_cons_of_mem c he)
  · intro d c ds cs h1 h2 ih hd hc t ht
    rw [settleLoop_cons_gt ds cs h1 h2] at ht
    rcases List.mem_cons.mp ht with rfl | ht
    · exact hc c (List.mem_cons_self c cs)
    · refine ih ?_ (fun e he => hc e (List.mem_cons_of_mem c he)) t ht
      intro e he
      rcases List.mem_cons.mp he with rfl | he
      · have hle : c.2.2 ≤ d.2.2 := not_lt.mp h2
        have habs : eps ≤ |d.2.2 - c.2.2| := not_lt.mp h1
        rw [abs_of_nonneg (by linarith)] at habs
        have := eps_pos
        simp only
        linarith
      · exact hd e (List.mem_cons_of_mem d he)

/-- Every transaction's debtor comes from the debtor list and every
transaction's creditor comes from the creditor list. -/
theorem settleLoop_mem_pids : ∀ (ds cs : List Ent), ∀ t ∈ settleLoop ds cs,
    t.1 ∈ ds.map (fun e => e.1) ∧ t.2.2.1 ∈ cs.map (fun e => e.1) := by
  refine settleLoop_ind
    (fun ds cs => ∀ t ∈ settleLoop ds cs,
      t.1 ∈ ds.map (fun e => e.1) ∧ t.2.2.1 ∈ cs.map (fun e => e.1)) ?_ ?_ ?_ ?_ ?_
  · intro cs t ht
    rw [settleLoop_nil_left] at ht
    simp at ht
  · intro d ds t ht
    rw [settleLoop_nil_right] at ht
    simp at ht
  · intro d c ds cs h ih t ht
    rw [settleLoop_cons_eq ds cs h] at ht
    rcases List.mem_cons.mp ht with rfl | ht
    · constructor
      · exact List.mem_cons.mpr (Or.inl rfl)
      · exact List.mem_cons.mpr (Or.inl rfl)
    · obtain ⟨hl, hr⟩ := ih t ht
      exact ⟨List.mem_cons_of_mem _ hl, List.mem_cons_of_mem _ hr⟩
  · intro d c ds cs h1 h2 ih t ht
    rw [settleLoop_cons_lt ds cs h1 h2] at ht
    rcases List.mem_cons.mp ht with rfl | ht
    · constructor
      · exact List.mem_cons.mpr (Or.inl rfl)
      · exact List.mem_cons.mpr (Or.inl rfl)
    · obtain ⟨hl, hr⟩ := ih t ht
      rw [List.map_cons] at hr
      exact ⟨List.mem_cons_of_mem _ hl, by rw [List.map_cons]; exact hr⟩
  · intro d c ds cs h1 h2 ih t ht
    rw [settleLoop_cons_gt ds cs h1 h2] at ht
    rcases List.mem_cons.mp ht with rfl | ht
    · constructor
      · exact List.mem_cons.mpr (Or.inl rfl)
      · exact List.mem_cons.mpr (Or.inl rfl)
    · obtain ⟨hl, hr⟩ := ih t ht
      rw [List.map_cons] at hl
      exact ⟨by rw [List.map_cons]; exact hl, List.mem_cons_of_mem _ hr⟩

/-- The emitted total never exceeds the total debt of the working debtor
list: every transaction is funded by the current debtor's remaining debt. -/
theorem txSum_le_sumAmt : ∀ (ds cs : List Ent),
    (∀ e ∈ ds, 0 ≤ e.2.2) → (∀ e ∈ cs, 0 ≤ e.2.2) →
    txSum (settleLoop ds cs) ≤ sumAmt ds := by
  refine settleLoop_ind
    (fun ds cs => (∀ e ∈ ds, 0 ≤ e.2.2) → (∀ e ∈ cs, 0 ≤ e.2.2) →
      txSum (settleLoop ds cs) ≤ sumAmt ds) ?_ ?_ ?_ ?_ ?_
  · intro cs _ _
    rw [settleLoop_nil_left, txSum_nil, sumAmt_nil]
  · intro d ds hd _
    rw [settleLoop_nil_right, txSum_nil]
    exact sumAmt_nonneg hd
  · intro d c ds cs h ih hd hc
    rw [settleLoop_cons_eq ds cs h, txSum_cons, sumAmt_cons]
    have hih := ih (fun e he => hd e (List.mem_cons_of_mem d he))
      (fun e he => hc e (List.mem_cons_of_mem c he))
    linarith
  · intro d c ds cs h1 h2 ih hd hc
    rw [settleLoop_cons_lt ds cs h1 h2, txSum_cons, sumAmt_cons]
    have hih := ih (fun e he => hd e (List.mem_cons_of_mem d he)) ?_
    · linarith
    · intro e he
      rcases List.mem_cons.mp he with rfl | he
      · simp only
        linarith
      · exact hc e (List.mem_cons_of_mem c he)
  · intro d c ds cs h1 h2 ih hd hc
    rw [settleLoop_cons_gt ds cs h1 h2, txSum_cons, sumAmt_cons]
    have hdc : c.2.2 ≤ d.2.2 := not_lt.mp h2
    have hih := ih ?_ (fun e he => hc e (List.mem_cons_of_mem c he))
    · rw [sumAmt_cons] at hih
      simp only at hih
      linarith
    · intro e he
      rcases List.mem_cons.mp he with rfl | he
      · simp only
        linarith
      · exact hd e (List.mem_cons_of_mem d he)

/-- Lower bound on the emitted total: it falls short of the total credit by
at most `eps` per emitted transaction, plus the initial surplus of credit
over debt (if any). -/
theorem sumC_sub_txSum_le : ∀ (ds cs : List Ent),
    (∀ e ∈ ds, 0 ≤ e.2.2) → (∀ e ∈ cs, 0 ≤ e.2.2) →
    sumAmt cs - txSum (settleLoop ds cs)
      ≤ eps * (settleLoop ds cs).length + max (sumAmt cs - sumAmt ds) 0 := by
  refine settleLoop_ind
    (fun ds cs => (∀ e ∈ ds, 0 ≤ e.2.2) → (∀ e ∈ cs, 0 ≤ e.2.2) →
      sumAmt cs - txSum (settleLoop ds cs)
        ≤ eps * (settleLoop ds cs).length + max (sumAmt cs - sumAmt ds) 0) ?_ ?_ ?_ ?_ ?_
  · intro cs _ hc
    rw [settleLoop_nil_left, txSum_nil, sumAmt_nil]
    simp only [List.length_nil, Nat.cast_zero, mul_zero, zero_add, sub_zero]
    exact le_max_left _ _
  · intro d ds hd _
    rw [settleLoop_nil_right, txSum_nil, sumAmt_nil]
    have : (0 : ℚ) ≤ max (0 - sumAmt (d :: ds)) 0 := le_max_right _ _
    simp only [List.length_nil, Nat.cast_zero, mul_zero, zero_add, sub_zero]
    linarith
  · intro d c ds cs h ih hd hc
    rw [settleLoop_cons_eq ds cs h, txSum_cons, sumAmt_cons, sumAmt_cons,
      List.length_cons]
    have hih := ih (fun e he => hd e (List.mem_cons_of_mem d he))
      (fun e he => hc e (List.mem_cons_of_mem c he))
    have hcd : c.2.2 - d.2.2 < eps := by
      have h1 : c.2.2 - d.2.2 ≤ |c.2.2 - d.2.2| := le_abs_self _
      rw [abs_sub_comm] at h1
      linarith
    have hepos := eps_pos
    push_cast
    rcases max_cases (sumAmt cs - sumAmt ds) 0 with ⟨hm1, hm2⟩ | ⟨hm1, hm2⟩ <;>
      rcases max_cases (c.2.2 + sumAmt cs - (d.2.2 + sumAmt ds)) 0 with
        ⟨hn1, hn2⟩ | ⟨hn1, hn2⟩ <;>
      rw [hm1] at hih <;> rw [hn1] <;> linarith
  · intro d c ds cs h1 h2 ih hd hc
    rw [settleLoop_cons_lt ds cs h1 h2, txSum_cons, sumAmt_cons, List.length_cons,
      sumAmt_cons d ds]
    have hih := ih (fun e he => hd e (List.mem_cons_of_mem d he)) ?_
    · rw [sumAmt_cons] at hih
      simp only at hih
      have heq : c.2.2 - d.2.2 + sumAmt cs - sumAmt ds
          = c.2.2 + sumAmt cs - (d.2.2 + sumAmt ds) := by ring
      rw [heq] at hih
      have hepos := eps_pos
      push_cast
      linarith
    · intro e he
      rcases List.mem_cons.mp he with rfl | he
      · simp only
        linarith
      · exact hc e (List.mem_cons_of_mem c he)
  · intro d c ds cs h1 h2 ih hd hc
    rw [settleLoop_cons_gt ds cs h1 h2, txSum_cons, sumAmt_cons, List.length_cons,
      sumAmt_cons d ds]
    have hdc : c.2.2 ≤ d.2.2 := not_lt.mp h2
    have hih := ih ?_ (fun e he => hc e (List.mem_cons_of_mem c he))
    · rw [sumAmt_cons] at hih
      simp only at hih
      have heq : sumAmt cs - (d.2.2 - c.2.2 + sumAmt ds)
          = c.2.2 + sumAmt cs - (d.2.2 + sumAmt ds) := by ring
      rw [heq] at hih
      have hepos := eps_pos
      push_cast
      linarith
    · intro e he
      rcases List.mem_cons.mp he with rfl | he
      · simp only
        linarith
      · exact hd e (List.mem_cons_of_mem d he)

/-- Per-debtor accounting: a person never pays more than the total debt
recorded for them in the working debtor list, and what is left unpaid for
them is at most the total unpaid debt of the whole list. -/
theorem outOf_bounds (p : Nat) : ∀ (ds cs : List Ent),
    (∀ e ∈ ds, 0 ≤ e.2.2) → (∀ e ∈ cs, 0 ≤ e.2.2) →
    outOf p (settleLoop ds cs) ≤ amtOf p ds ∧
    amtOf p ds - outOf p (settleLoop ds cs)
      ≤ sumAmt ds - txSum (settleLoop ds cs) := by
  refine settleLoop_ind
    (fun ds cs => (∀ e ∈ ds, 0 ≤ e.2.2) → (∀ e ∈ cs, 0 ≤ e.2.2) →
      outOf p (settleLoop ds cs) ≤ amtOf p ds ∧
      amtOf p ds - outOf p (settleLoop ds cs)
        ≤ sumAmt ds - txSum (settleLoop ds cs)) ?_ ?_ ?_ ?_ ?_
  · intro cs _ _
    rw [settleLoop_nil_left, outOf_nil, amtOf_nil, sumAmt_nil, txSum_nil]
    exact ⟨le_rfl, le_rfl⟩
  · intro d ds hd _
    rw [settleLoop_nil_right, outOf_nil, txSum_nil]
    exact ⟨amtOf_nonneg p hd, by
      have := amtOf_le_sumAmt (l := d :: ds) p hd
      linarith⟩
  · intro d c ds cs h ih hd hc
    rw [settleLoop_cons_eq ds cs h, outOf_cons, amtOf_cons, sumAmt_cons, txSum_cons]
    obtain ⟨ih1, ih2⟩ := ih (fun e he => hd e (List.mem_cons_of_mem d he))
      (fun e he => hc e (List.mem_cons_of_mem c he))
    simp only
    by_cases hp : d.1 = p
    · simp only [if_pos hp]
      exact ⟨by linarith, by linarith⟩
    · simp only [if_neg hp]
      exact ⟨by linarith, by linarith⟩
  · intro d c ds cs h1 h2 ih hd hc
    rw [settleLoop_cons_lt ds cs h1 h2, outOf_cons, amtOf_cons, sumAmt_cons, txSum_cons]
    have hcs2 : ∀ e ∈ (c.1, c.2.1, c.2.2 - d.2.2) :: cs, 0 ≤ e.2.2 := by
      intro e he
      rcases List.mem_cons.mp he with rfl | he
      · simp only
        linarith
      · exact hc e (List.mem_cons_of_mem c he)
    obtain ⟨ih1, ih2⟩ := ih (fun e he => hd e (List.mem_cons_of_mem d he)) hcs2
    simp only
    by_cases hp : d.1 = p
    · simp only [if_pos hp]
      exact ⟨by linarith, by linarith⟩
    · simp only [if_neg hp]
      exact ⟨by linarith, by linarith⟩
  · intro d c ds cs h1 h2 ih hd hc
    have hdc : c.2.2 ≤ d.2.2 := not_lt.mp h2
    rw [settleLoop_cons_gt ds cs h1 h2, outOf_cons, amtOf_cons, sumAmt_cons, txSum_cons]
    have hds2 : ∀ e ∈ (d.1, d.2.1, d.2.2 - c.2.2) :: ds, 0 ≤ e.2.2 := by
      intro e he
      rcases List.mem_cons.mp he with rfl | he
      · simp only
        linarith
      · exact hd e (List.mem_cons_of_mem d he)
    obtain ⟨ih1, ih2⟩ := ih hds2 (fun e he => hc e (List.mem_cons_of_mem c he))
    simp only [amtOf_cons, sumAmt_cons] at ih1 ih2
    simp only at ih1 ih2 ⊢
    by_cases hp : d.1 = p
    · simp only [if_pos hp] at ih1 ih2 ⊢
      exact ⟨by linarith, by linarith⟩
    · simp only [if_neg hp] at ih1 ih2 ⊢
      exact ⟨by linarith, by linarith⟩

/-- Per-creditor accounting, upper side: a person never receives more than
the credit recorded for them, except for an `eps` overshoot for each of
their entries in the working creditor list (at most one near-equal match
overshoot per entry). -/
theorem inOf_upper (p : Nat) : ∀ (ds cs : List Ent),
    (∀ e ∈ ds, 0 ≤ e.2.2) → (∀ e ∈ cs, 0 ≤ e.2.2) →
    inOf p (settleLoop ds cs)
      ≤ amtOf p cs + eps * ((cs.filter (fun e => e.1 = p)).length : ℚ) := by
  refine settleLoop_ind
    (fun ds cs => (∀ e ∈ ds, 0 ≤ e.2.2) → (∀ e ∈ cs, 0 ≤ e.2.2) →
      inOf p (settleLoop ds cs)
        ≤ amtOf p cs + eps * ((cs.filter (fun e => e.1 = p)).length : ℚ)) ?_ ?_ ?_ ?_ ?_
  · intro cs _ hc
    rw [settleLoop_nil_left, inOf_nil]
    have h1 := amtOf_nonneg p hc
    have h2 : (0 : ℚ) ≤ eps * ((cs.filter (fun e => e.1 = p)).length : ℚ) := by
      have := eps_pos
      positivity
    linarith
  · intro d ds _ _
    rw [settleLoop_nil_right, inOf_nil, amtOf_nil]
    simp
  · intro d c ds cs h ih hd hc
    have hih := ih (fun e he => hd e (List.mem_cons_of_mem d he))
      (fun e he => hc e (List.mem_cons_of_mem c he))
    rw [settleLoop_cons_eq ds cs h, inOf_cons, amtOf_cons]
    simp only
    have hdlec : d.2.2 - c.2.2 < eps := by
      have := le_abs_self (d.2.2 - c.2.2)
      linarith
    by_cases hp : c.1 = p
    · have hflt : ((c :: cs).filter (fun e => e.1 = p))
          = c :: cs.filter (fun e => e.1 = p) := by
        simp [List.filter_cons, hp]
      simp only [if_pos hp]
      rw [hflt, List.length_cons]
      push_cast
      linarith
    · have hflt : ((c :: cs).filter (fun e => e.1 = p))
          = cs.filter (fun e => e.1 = p) := by
        simp [List.filter_cons, hp]
      simp only [if_neg hp]
      rw [hflt]
      linarith
  · intro d c ds cs h1 h2 ih hd hc
    have hih := ih (fun e he => hd e (List.mem_cons_of_mem d he)) ?_
    · rw [settleLoop_cons_lt ds cs h1 h2, inOf_cons, amtOf_cons]
      rw [amtOf_cons] at hih
      simp only at hih ⊢
      by_cases hp : c.1 = p
      · have hflt : ((c :: cs).filter (fun e => e.1 = p))
            = c :: cs.filter (fun e => e.1 = p) := by
          simp [List.filter_cons, hp]
        have hflt2 : (((c.1, c.2.1, c.2.2 - d.2.2) :: cs).filter (fun e => e.1 = p))
            = (c.1, c.2.1, c.2.2 - d.2.2) :: cs.filter (fun e => e.1 = p) := by
          simp [List.filter_cons, hp]
        rw [hflt2, List.length_cons] at hih
        simp only [if_pos hp] at hih ⊢
        rw [hflt, List.length_cons]
        linarith
      · have hflt : ((c :: cs).filter (fun e => e.1 = p))
            = cs.filter (fun e => e.1 = p) := by
          simp [List.filter_cons, hp]
        have hflt2 : (((c.1, c.2.1, c.2.2 - d.2.2) :: cs).filter (fun e => e.1 = p))
            = cs.filter (fun e => e.1 = p) := by
          simp [List.filter_cons, hp]
        rw [hflt2] at hih
        simp only [if_neg hp] at hih ⊢
        rw [hflt]
        linarith
    · intro e he
      rcases List.mem_cons.mp he with rfl | he
      · simp only
        linarith
      · exact hc e (List.mem_cons_of_mem c he)
  · intro d c ds cs h1 h2 ih hd hc
    have hdc : c.2.2 ≤ d.2.2 := not_lt.mp h2
    have hih := ih ?_ (fun e he => hc e (List.mem_cons_of_mem c he))
    · rw [settleLoop_cons_gt ds cs h1 h2, inOf_cons, amtOf_cons]
      simp only at hih ⊢
      have hepos := eps_pos
      by_cases hp : c.1 = p
      · have hflt : ((c :: cs).filter (fun e => e.1 = p))
            = c :: cs.filter (fun e => e.1 = p) := by
          simp [List.filter_cons, hp]
        simp only [if_pos hp]
        rw [hflt, List.length_cons]
        push_cast
        linarith
      · have hflt : ((c :: cs).filter (fun e => e.1 = p))
            = cs.filter (fun e => e.1 = p) := by
          simp [List.filter_cons, hp]
        simp only [if_neg hp]
        rw [hflt]
        linarith
    · intro e he
      rcases List.mem_cons.mp he with rfl | he
      · simp only
        linarith
      · exact hd e (List.mem_cons_of_mem d he)

/-- Per-creditor accounting, lower side: what a person fails to receive, in
comparison with the credit recorded for them, is at most the total
shortfall of the walk plus `eps` per emitted transaction. -/
theorem inOf_lower (p : Nat) : ∀ (ds cs : List Ent),
    (∀ e ∈ ds, 0 ≤ e.2.2) → (∀ e ∈ cs, 0 ≤ e.2.2) →
    amtOf p cs - inOf p (settleLoop ds cs)
      ≤ (sumAmt cs - txSum (settleLoop ds cs))
          + eps * ((settleLoop ds cs).length : ℚ) := by
  refine settleLoop_ind
    (fun ds cs => (∀ e ∈ ds, 0 ≤ e.2.2) → (∀ e ∈ cs, 0 ≤ e.2.2) →
      amtOf p cs - inOf p (settleLoop ds cs)
        ≤ (sumAmt cs - txSum (settleLoop ds cs))
            + eps * ((settleLoop ds cs).length : ℚ)) ?_ ?_ ?_ ?_ ?_
  · intro cs _ hc
    rw [settleLoop_nil_left, inOf_nil, txSum_nil]
    have := amtOf_le_sumAmt p hc
    simp only [List.length_nil, Nat.cast_zero, mul_zero]
    linarith
  · intro d ds _ _
    rw [settleLoop_nil_right, inOf_nil, amtOf_nil, sumAmt_nil, txSum_nil]
    simp
  · intro d c ds cs h ih hd hc
    have hih := ih (fun e he => hd e (List.mem_cons_of_mem d he))
      (fun e he => hc e (List.mem_cons_of_mem c he))
    rw [settleLoop_cons_eq ds cs h, inOf_cons, amtOf_cons, sumAmt_cons, txSum_cons,
      List.length_cons]
    simp only
    have hepos := eps_pos
    have hcd : -eps < c.2.2 - d.2.2 := by
      have := le_abs_self (d.2.2 - c.2.2)
      linarith
    push_cast
    by_cases hp : c.1 = p
    · simp only [if_pos hp]
      linarith
    · simp only [if_neg hp]
      linarith
  · intro d c ds cs h1 h2 ih hd hc
    have hcs2 : ∀ e ∈ (c.1, c.2.1, c.2.2 - d.2.2) :: cs, 0 ≤ e.2.2 := by
      intro e he
      rcases List.mem_cons.mp he with rfl | he
      · simp only
        linarith
      · exact hc e (List.mem_cons_of_mem c he)
    have hih := ih (fun e he => hd e (List.mem_cons_of_mem d he)) hcs2
    rw [settleLoop_cons_lt ds cs h1 h2, inOf_cons, amtOf_cons, sumAmt_cons,
      txSum_cons, List.length_cons]
    rw [amtOf_cons, sumAmt_cons] at hih
    simp only at hih ⊢
    have hepos := eps_pos
    push_cast
    by_cases hp : c.1 = p
    · simp only [if_pos hp] at hih ⊢
      linarith
    · simp only [if_neg hp] at hih ⊢
      linarith
  · intro d c ds cs h1 h2 ih hd hc
    have hdc : c.2.2 ≤ d.2.2 := not_lt.mp h2
    have hds2 : ∀ e ∈ (d.1, d.2.1, d.2.2 - c.2.2) :: ds, 0 ≤ e.2.2 := by
      intro e he
      rcases List.mem_cons.mp he with rfl | he
      · simp only
        linarith
      · exact hd e (List.mem_cons_of_mem d he)
    have hih := ih hds2 (fun e he => hc e (List.mem_cons_of_mem c he))
    rw [settleLoop_cons_gt ds cs h1 h2, inOf_cons, amtOf_cons, sumAmt_cons,
      txSum_cons, List.length_cons]
    simp only at hih ⊢
    have hepos := eps_pos
    push_cast
    by_cases hp : c.1 = p
    · simp only [if_pos hp]
      linarith
    · simp only [if_neg hp]
      linarith

/-! ### Partition and sort transport lemmas -/

theorem debtorsOf_cons (b : Ent) (bs : List Ent) :
    debtorsOf (b :: bs)
      = if b.2.2 < 0 then (b.1, b.2.1, -b.2.2) :: debtorsOf bs else debtorsOf bs := by
  unfold debtorsOf
  by_cases h : b.2.2 < 0
  · simp [List.filter_cons, h]
  · simp [List.filter_cons, h]

theorem creditorsOf_cons (b : Ent) (bs : List Ent) :
    creditorsOf (b :: bs)
      = if 0 < b.2.2 then (b.1, b.2.1, b.2.2) :: creditorsOf bs else creditorsOf bs := by
  unfold creditorsOf
  by_cases h : 0 < b.2.2
  · simp [List.filter_cons, h]
  · simp [List.filter_cons, h]

/-- The signed balance total splits exactly into credit minus debt: the
partition in `get_settlement_plan` is strict, so a zero balance lands in
neither list and contributes nothing. -/
theorem balSum_eq_split (bs : List Ent) :
    balSum bs = sumAmt (creditorsOf bs) - sumAmt (debtorsOf bs) := by
  induction bs with
  | nil =>
    unfold balSum
    rw [sumAmt_nil]
    norm_num [debtorsOf, creditorsOf, sumAmt_nil]
  | cons b bs ih =>
    unfold balSum at ih ⊢
    rw [sumAmt_cons, debtorsOf_cons, creditorsOf_cons]
    rcases lt_trichotomy b.2.2 0 with hb | hb | hb
    · rw [if_pos hb, if_neg (not_lt.mpr (le_of_lt hb)), sumAmt_cons]
      simp only
      linarith
    · rw [if_neg (by rw [hb]; exact lt_irrefl 0), if_neg (by rw [hb]; exact lt_irrefl 0)]
      linarith
    · rw [if_neg (not_lt.mpr (le_of_lt hb)), if_pos hb, sumAmt_cons]
      simp only
      linarith

theorem debtorsOf_pos (bs : List Ent) : ∀ e ∈ debtorsOf bs, 0 < e.2.2 := by
  intro e he
  unfold debtorsOf at he
  obtain ⟨b, hb, rfl⟩ := List.mem_map.mp he
  have := (List.mem_filter.mp hb).2
  simp only [decide_eq_true_eq] at this
  simp only
  linarith

theorem creditorsOf_pos (bs : List Ent) : ∀ e ∈ creditorsOf bs, 0 < e.2.2 := by
  intro e he
  unfold creditorsOf at he
  obtain ⟨b, hb, rfl⟩ := List.mem_map.mp he
  have := (List.mem_filter.mp hb).2
  simp only [decide_eq_true_eq] at this
  simp only
  exact this

theorem mem_sortDesc {e : Ent} {l : List Ent} : e ∈ sortDesc l ↔ e ∈ l :=
  (sortDesc_perm l).mem_iff

theorem sumAmt_sortDesc (l : List Ent) : sumAmt (sortDesc l) = sumAmt l := by
  unfold sumAmt
  exact ((sortDesc_perm l).map (fun e => e.2.2)).sum_eq

theorem amtOf_sortDesc (p : Nat) (l : List Ent) :
    amtOf p (sortDesc l) = amtOf p l := by
  unfold amtOf
  exact (((sortDesc_perm l).filter (fun e => decide (e.1 = p))).map
    (fun e => e.2.2)).sum_eq

theorem filter_length_sortDesc (f : Ent → Bool) (l : List Ent) :
    ((sortDesc l).filter f).length = (l.filter f).length :=
  ((sortDesc_perm l).filter f).length_eq

theorem map_pid_mem_sortDesc {p : Nat} {l : List Ent} :
    p ∈ (sortDesc l).map (fun e => e.1) ↔ p ∈ l.map (fun e => e.1) :=
  ((sortDesc_perm l).map (fun e => e.1)).mem_iff

/-- Membership in the debtor list, by person id. -/
theorem mem_pid_debtorsOf {p : Nat} {bs : List Ent} :
    p ∈ (debtorsOf bs).map (fun e => e.1)
      ↔ ∃ b ∈ bs, b.1 = p ∧ b.2.2 < 0 := by
  unfold debtorsOf
  rw [List.map_map]
  constructor
  · intro h
    obtain ⟨b, hb, hbp⟩ := List.mem_map.mp h
    obtain ⟨hmem, hneg⟩ := List.mem_filter.mp hb
    simp only [decide_eq_true_eq] at hneg
    exact ⟨b, hmem, hbp, hneg⟩
  · rintro ⟨b, hmem, rfl, hneg⟩
    exact List.mem_map.mpr ⟨b,
      List.mem_filter.mpr ⟨hmem, by simp [hneg]⟩, rfl⟩

/-- Membership in the creditor list, by person id. -/
theorem mem_pid_creditorsOf {p : Nat} {bs : List Ent} :
    p ∈ (creditorsOf bs).map (fun e => e.1)
      ↔ ∃ b ∈ bs, b.1 = p ∧ 0 < b.2.2 := by
  unfold creditorsOf
  rw [List.map_map]
  constructor
  · intro h
    obtain ⟨b, hb, hbp⟩ := List.mem_map.mp h
    obtain ⟨hmem, hpos⟩ := List.mem_filter.mp hb
    simp only [decide_eq_true_eq] at hpos
    exact ⟨b, hmem, hbp, hpos⟩
  · rintro ⟨b, hmem, rfl, hpos⟩
    exact List.mem_map.mpr ⟨b,
      List.mem_filter.mpr ⟨hmem, by simp [hpos]⟩, rfl⟩

/-- In a balance list with pairwise distinct person ids (a Python dict),
two entries with the same id coincide. -/
theorem key_unique {bs : List Ent} (hnd : (bs.map (fun e => e.1)).Nodup)
    {b1 b2 : Ent} (h1 : b1 ∈ bs) (h2 : b2 ∈ bs) (hk : b1.1 = b2.1) : b1 = b2 := by
  induction bs with
  | nil => simp at h1
  | cons x xs ih =>
    rw [List.map_cons, List.nodup_cons] at hnd
    rcases List.mem_cons.mp h1 with rfl | h1m
    · rcases List.mem_cons.mp h2 with rfl | h2m
      · rfl
      · exact absurd (List.mem_map.mpr ⟨b2, h2m, hk.symm⟩) hnd.1
    · rcases List.mem_cons.mp h2 with rfl | h2m
      · exact absurd (List.mem_map.mpr ⟨b1, h1m, hk⟩) hnd.1
      · exact ih hnd.2 h1m h2m

/-- With pairwise distinct ids, the entries of `bs` with a given id form
exactly the singleton of the witnessing entry. -/
theorem filter_key_single {bs : List Ent} (hnd : (bs.map (fun e => e.1)).Nodup)
    {b : Ent} (hb : b ∈ bs) :
    bs.filter (fun e => e.1 = b.1) = [b] := by
  induction bs with
  | nil => simp at hb
  | cons x xs ih =>
    rw [List.map_cons, List.nodup_cons] at hnd
    rcases List.mem_cons.mp hb with rfl | hbm
    · rw [List.filter_cons, if_pos (by simp)]
      have hnone : xs.filter (fun e => e.1 = b.1) = [] := by
        rw [List.filter_eq_nil_iff]
        intro e he
        simp only [decide_eq_true_eq]
        intro hke
        exact hnd.1 (List.mem_map.mpr ⟨e, he, hke⟩)
      rw [hnone]
    · have hxk : ¬ (x.1 = b.1) := by
        intro hke
        exact hnd.1 (by rw [hke]; exact List.mem_map.mpr ⟨b, hbm, rfl⟩)
      rw [List.filter_cons, if_neg (by simp [hxk])]
      exact ih hnd.2 hbm

/-- Under distinct ids, the debtor list records exactly `-balance` for a
person with negative balance. -/
theorem amtOf_debtorsOf {bs : List Ent} (hnd : (bs.map (fun e => e.1)).Nodup)
    {b : Ent} (hb : b ∈ bs) (hneg : b.2.2 < 0) :
    amtOf b.1 (debtorsOf bs) = -b.2.2 := by
  unfold amtOf debtorsOf
  rw [List.filter_map]
  rw [show ((fun e : Ent => decide (e.1 = b.1)) ∘ fun e : Ent => (e.1, e.2.1, -e.2.2))
      = (fun e : Ent => decide (e.1 = b.1)) from rfl]
  rw [List.filter_comm, filter_key_single hnd hb]
  rw [List.filter_cons, if_pos (by simp [hneg]), List.filter_nil]
  simp

/-- Under distinct ids, the creditor list records exactly `balance` for a
person with positive balance. -/
theorem amtOf_creditorsOf {bs : List Ent} (hnd : (bs.map (fun e => e.1)).Nodup)
    {b : Ent} (hb : b ∈ bs) (hpos : 0 < b.2.2) :
    amtOf b.1 (creditorsOf bs) = b.2.2 := by
  unfold amtOf creditorsOf
  rw [List.filter_map]
  rw [show ((fun e : Ent => decide (e.1 = b.1)) ∘ fun e : Ent => (e.1, e.2.1, e.2.2))
      = (fun e : Ent => decide (e.1 = b.1)) from rfl]
  rw [List.filter_comm, filter_key_single hnd hb]
  rw [List.filter_cons, if_pos (by simp [hpos]), List.filter_nil]
  simp

/-- Under distinct ids, a person with positive balance appears exactly once
in the creditor list. -/
theorem count_creditorsOf {bs : List Ent} (hnd : (bs.map (fun e => e.1)).Nodup)
    {b : Ent} (hb : b ∈ bs) (hpos : 0 < b.2.2) :
    ((creditorsOf bs).filter (fun e => e.1 = b.1)).length = 1 := by
  unfold creditorsOf
  rw [List.filter_map]
  rw [show ((fun e : Ent => decide (e.1 = b.1)) ∘ fun e : Ent => (e.1, e.2.1, e.2.2))
      = (fun e : Ent => decide (e.1 = b.1)) from rfl]
  rw [List.filter_comm, filter_key_single hnd hb]
  rw [List.filter_cons, if_pos (by simp [hpos]), List.filter_nil]
  simp

/-! ### Claim theorems -/

/-- C2: for every person list with distinct ids and every expense list with
splits (referencing only known persons, as the spec's referential-integrity
precondition requires), `calculate_balances` returns exactly one entry per
known person, in order, whose balance is the sum of the amounts that person
paid minus the sum of that person's split shares; a person appearing in no
expense and no split keeps balance 0. -/
theorem C2_balances_characterization (persons : List (Nat × String))
    (expenses : List Expense)
    (_hnd : (persons.map Prod.fst).Nodup) (_hri : RefIntegrity persons expenses) :
    calculate_balances persons expenses
        = persons.map (fun p =>
            (p.1, p.2, totalPaid p.1 expenses - totalShare p.1 expenses))
      ∧ ∀ p ∈ persons,
          (∀ e ∈ expenses, e.paidBy ≠ p.1 ∧ ∀ s ∈ e.splits, s.1 ≠ p.1) →
          (p.1, p.2, (0 : ℚ)) ∈ calculate_balances persons expenses := by
  refine ⟨calculate_balances_eq persons expenses, ?_⟩
  intro p hp habs
  rw [calculate_balances_eq]
  have hpd : totalPaid p.1 expenses = 0 := by
    unfold totalPaid
    rw [List.filter_eq_nil_iff.mpr ?_]
    · rfl
    · intro e he
      simp only [decide_eq_true_eq]
      exact (habs e he).1
  have hsh : totalShare p.1 expenses = 0 := by
    unfold totalShare
    rw [List.filter_eq_nil_iff.mpr ?_]
    · rfl
    · intro s hs
      obtain ⟨e, he, hse⟩ := List.mem_flatMap.mp hs
      simp only [decide_eq_true_eq]
      exact (habs e he).2 s hse
  refine List.mem_map.mpr ⟨p, hp, ?_⟩
  rw [hpd, hsh, sub_zero]

/-- C2 witness: scenario A input. -/
theorem C2_balances_witness :
    calculate_balances [(1, "Alice"), (2, "Bob"), (3, "Carol")]
        [⟨"Dinner", 30, "2024-01-01", 1, [(1, 10), (2, 10), (3, 10)]⟩]
        = ([(1, "Alice"), (2, "Bob"), (3, "Carol")] : List (Nat × String)).map
            (fun p => (p.1, p.2,
              totalPaid p.1 [⟨"Dinner", 30, "2024-01-01", 1, [(1, 10), (2, 10), (3, 10)]⟩]
              - totalShare p.1 [⟨"Dinner", 30, "2024-01-01", 1, [(1, 10), (2, 10), (3, 10)]⟩]))
      ∧ ∀ p ∈ ([(1, "Alice"), (2, "Bob"), (3, "Carol")] : List (Nat × String)),
          (∀ e ∈ [(⟨"Dinner", 30, "2024-01-01", 1, [(1, 10), (2, 10), (3, 10)]⟩ : Expense)],
            e.paidBy ≠ p.1 ∧ ∀ s ∈ e.splits, s.1 ≠ p.1) →
          (p.1, p.2, (0 : ℚ)) ∈ calculate_balances [(1, "Alice"), (2, "Bob"), (3, "Carol")]
            [⟨"Dinner", 30, "2024-01-01", 1, [(1, 10), (2, 10), (3, 10)]⟩] :=
  C2_balances_characterization _ _ (by decide) (by unfold RefIntegrity; decide)

/-- C5: if every expense's split shares sum exactly to the expense amount
(exact rational arithmetic), the signed balances sum exactly to 0, under
the spec's validity preconditions (distinct person ids, referential
integrity). -/
theorem C5_balances_sum_zero (persons : List (Nat × String)) (expenses : List Expense)
    (hnd : (persons.map Prod.fst).Nodup) (hri : RefIntegrity persons expenses)
    (hsplit : ∀ e ∈ expenses, (e.splits.map (fun s => s.2)).sum = e.amount) :
    balSum (calculate_balances persons expenses) = 0 := by
  unfold balSum sumAmt
  rw [calculate_balances_eq, List.map_map]
  rw [show ((fun e : Ent => e.2.2) ∘ fun p : Nat × String =>
      (p.1, p.2, totalPaid p.1 expenses - totalShare p.1 expenses))
      = fun p : Nat × String => totalPaid p.1 expenses - totalShare p.1 expenses
    from rfl]
  rw [sum_map_sub_split]
  have hpay : (persons.map (fun p => totalPaid p.1 expenses)).sum
      = (expenses.map (fun e => e.amount)).sum := by
    have h1 : persons.map (fun p => totalPaid p.1 expenses)
        = persons.map (fun p =>
            keySum p.1 (expenses.map (fun e => (e.paidBy, e.amount)))) :=
      List.map_congr_left (fun p _ => totalPaid_eq_keySum p.1 expenses)
    rw [h1, sum_map_keySum hnd ?_]
    · rw [List.map_map]
      rfl
    · intro op hop
      obtain ⟨e, he, rfl⟩ := List.mem_map.mp hop
      exact (hri e he).1
  have hshare : (persons.map (fun p => totalShare p.1 expenses)).sum
      = (expenses.map (fun e => e.amount)).sum := by
    have h1 : persons.map (fun p => totalShare p.1 expenses)
        = persons.map (fun p =>
            keySum p.1 (expenses.flatMap (fun e => e.splits))) := rfl
    rw [h1, sum_map_keySum hnd ?_]
    · rw [sum_map_snd_flatMap]
      exact congrArg _ (List.map_congr_left (fun e he => hsplit e he))
    · intro op hop
      obtain ⟨e, he, hs⟩ := List.mem_flatMap.mp hop
      exact (hri e he).2 op hs
  rw [hpay, hshare, sub_self]

/-- C5 witness: scenario A input. -/
theorem C5_balances_sum_zero_witness :
    balSum (calculate_balances [(1, "Alice"), (2, "Bob"), (3, "Carol")]
      [⟨"Dinner", 30, "2024-01-01", 1, [(1, 10), (2, 10), (3, 10)]⟩]) = 0 :=
  C5_balances_sum_zero _ _ (by decide) (by unfold RefIntegrity; decide)
    (by
      intro e he
      simp only [List.mem_cons, List.not_mem_nil, or_false] at he
      rw [he]
      norm_num)

/-- C6: the settlement walk terminates within `len(debtors) + len(creditors)`
iterations (each iteration strictly advances at least one cursor), and the
fueled loop returns a result — never the fuel-exhaustion marker — so the
planner is a total function of its input. -/
theorem C6_loop_terminates : ∀ (ds cs : List Ent),
    settleLoopF (ds.length + cs.length) ds cs = some (settleLoop ds cs) :=
  fun ds cs => settleLoopF_eq_some (ds.length + cs.length) ds cs le_rfl

/-- C7: every transaction emitted by the settlement planner has a strictly
positive amount. -/
theorem C7_amounts_positive (bs : List Ent) :
    ∀ t ∈ plan_from_balances bs, 0 < t.2.2.2.2 := by
  intro t ht
  unfold plan_from_balances at ht
  refine settleLoop_amounts_pos _ _ ?_ ?_ t ht
  · intro e he
    exact debtorsOf_pos bs e (mem_sortDesc.mp he)
  · intro e he
    exact creditorsOf_pos bs e (mem_sortDesc.mp he)

/-- C7 witness: a single debtor paying a single creditor. -/
theorem C7_amounts_positive_witness :
    (0 : ℚ) < ((1, "b", 2, "a", (5 : ℚ)) : Txn).2.2.2.2 :=
  C7_amounts_positive [(1, "b", -5), (2, "a", 5)] (1, "b", 2, "a", (5 : ℚ))
    (by
      rw [show plan_from_balances [(1, "b", -5), (2, "a", 5)]
          = [(1, "b", 2, "a", (5 : ℚ))] from by
        norm_num [plan_from_balances, debtorsOf, creditorsOf, sortDesc, insertDesc,
          settleLoop, settleLoopF, eps, abs, List.filter]]
      exact List.mem_singleton.mpr rfl)

/-- C8: when the current debtor's and creditor's remaining magnitudes differ
by less than `0.01`, exactly one transaction is emitted, its amount is the
debtor's remaining magnitude, both cursors advance, and no residual
transaction is emitted for the sub-epsilon difference. -/
theorem C8_near_equal_step (d c : Ent) (ds cs : List Ent)
    (h : |d.2.2 - c.2.2| < eps) :
    settleLoop (d :: ds) (c :: cs)
      = (d.1, d.2.1, c.1, c.2.1, d.2.2) :: settleLoop ds cs :=
  settleLoop_cons_eq ds cs h

/-- C8 witness: two magnitudes differing by `0.005 < 0.01`. -/
theorem C8_near_equal_step_witness :
    |((1 : ℚ)/2) - (101/200 : ℚ)| < eps
    ∧ settleLoop [(1, "a", 1/2)] [(2, "b", 101/200)]
        = (1, "a", 2, "b", (1/2 : ℚ)) :: settleLoop [] [] :=
  ⟨by norm_num [eps, abs],
    C8_near_equal_step (1, "a", 1/2) (2, "b", 101/200) [] []
      (by norm_num [eps, abs])⟩

/-- C9: scenario A — persons Alice, Bob, Carol; one expense of 30 paid by
Alice split equally three ways — yields balances Alice +20, Bob −10,
Carol −10 and the settlement plan "Bob pays Alice 10, Carol pays Alice 10",
in that order. -/
theorem C9_scenario_A :
    calculate_balances [(1, "Alice"), (2, "Bob"), (3, "Carol")]
        [⟨"Dinner", 30, "2024-01-01", 1, [(1, 10), (2, 10), (3, 10)]⟩]
      = [(1, "Alice", 20), (2, "Bob", -10), (3, "Carol", -10)]
    ∧ get_settlement_plan [(1, "Alice"), (2, "Bob"), (3, "Carol")]
        [⟨"Dinner", 30, "2024-01-01", 1, [(1, 10), (2, 10), (3, 10)]⟩]
      = [(2, "Bob", 1, "Alice", 10), (3, "Carol", 1, "Alice", 10)] := by
  constructor
  · norm_num [calculate_balances, initBalances, addToBalance]
  · norm_num [get_settlement_plan, plan_from_balances, calculate_balances,
      initBalances, addToBalance, debtorsOf, creditorsOf, sortDesc, insertDesc,
      settleLoop, settleLoopF, eps, abs, List.filter]

/-- C3 counterexample: the source partitions with strict `< 0` / `> 0`, not
with the epsilon band.  Person 1 has balance `-0.005`, which is within
`eps = 0.01` of zero, yet lands in the debtor list and is referenced as
debtor by the emitted transaction. -/
theorem C3_zero_balance_counterexample :
    (1, "a", (-1/200 : ℚ)) ∈ ([(1, "a", -1/200), (2, "b", 1/200)] : List Ent)
    ∧ |(-1/200 : ℚ)| < eps
    ∧ 1 ∈ (debtorsOf [(1, "a", -1/200), (2, "b", 1/200)]).map (fun e => e.1)
    ∧ plan_from_balances [(1, "a", -1/200), (2, "b", 1/200)]
        = [(1, "a", 2, "b", (1/200 : ℚ))] := by
  refine ⟨by simp, by norm_num [eps, abs], ?_, ?_⟩
  · norm_num [debtorsOf, List.filter]
  · norm_num [plan_from_balances, debtorsOf, creditorsOf, sortDesc, insertDesc,
      settleLoop, settleLoopF, eps, abs, List.filter]

/-- C3 (amended): every person whose balance is exactly 0 is placed in
neither the debtor list nor the creditor list, and consequently no emitted
settlement transaction references that person as debtor or creditor.
(The claim's epsilon-band version is false on the code; the partition is
strict, see the counterexample.) -/
theorem C3_zero_balance_amended (bs : List Ent) (p : Nat)
    (h : ∀ b ∈ bs, b.1 = p → b.2.2 = 0) :
    p ∉ (debtorsOf bs).map (fun e => e.1)
    ∧ p ∉ (creditorsOf bs).map (fun e => e.1)
    ∧ ∀ t ∈ plan_from_balances bs, t.1 ≠ p ∧ t.2.2.1 ≠ p := by
  have hd : p ∉ (debtorsOf bs).map (fun e => e.1) := by
    intro hmem
    obtain ⟨b, hb, hk, hneg⟩ := mem_pid_debtorsOf.mp hmem
    rw [h b hb hk] at hneg
    exact lt_irrefl 0 hneg
  have hc : p ∉ (creditorsOf bs).map (fun e => e.1) := by
    intro hmem
    obtain ⟨b, hb, hk, hpos⟩ := mem_pid_creditorsOf.mp hmem
    rw [h b hb hk] at hpos
    exact lt_irrefl 0 hpos
  refine ⟨hd, hc, ?_⟩
  intro t ht
  unfold plan_from_balances at ht
  obtain ⟨hdl, hcl⟩ := settleLoop_mem_pids _ _ t ht
  rw [map_pid_mem_sortDesc] at hdl hcl
  exact ⟨fun he => hd (he ▸ hdl), fun he => hc (he ▸ hcl)⟩

/-- C3 witness: a person with balance exactly 0 among a debtor and a
creditor. -/
theorem C3_zero_balance_witness :
    1 ∉ (debtorsOf [(1, "a", 0), (2, "b", -3), (3, "c", 3)]).map (fun e => e.1)
    ∧ 1 ∉ (creditorsOf [(1, "a", 0), (2, "b", -3), (3, "c", 3)]).map (fun e => e.1)
    ∧ ∀ t ∈ plan_from_balances [(1, "a", 0), (2, "b", -3), (3, "c", 3)],
        t.1 ≠ 1 ∧ t.2.2.1 ≠ 1 :=
  C3_zero_balance_amended [(1, "a", 0), (2, "b", -3), (3, "c", 3)] 1
    (by
      intro b hb hk
      simp only [List.mem_cons, List.not_mem_nil, or_false] at hb
      rcases hb with rfl | rfl | rfl
      · rfl
      · simp at hk
      · simp at hk)

/-- C10: in every emitted transaction the debtor and the creditor are
distinct persons; the debtor's original balance is strictly negative and
the creditor's is strictly positive. -/
theorem C10_no_self_payment (bs : List Ent)
    (hnd : (bs.map (fun e => e.1)).Nodup) :
    ∀ t ∈ plan_from_balances bs,
      t.1 ≠ t.2.2.1
      ∧ (∃ b ∈ bs, b.1 = t.1 ∧ b.2.2 < 0)
      ∧ (∃ b ∈ bs, b.1 = t.2.2.1 ∧ 0 < b.2.2) := by
  intro t ht
  unfold plan_from_balances at ht
  obtain ⟨hdl, hcl⟩ := settleLoop_mem_pids _ _ t ht
  rw [map_pid_mem_sortDesc] at hdl hcl
  have hdeb := mem_pid_debtorsOf.mp hdl
  have hcred := mem_pid_creditorsOf.mp hcl
  refine ⟨?_, hdeb, hcred⟩
  intro heq
  obtain ⟨b1, hb1, hk1, hneg⟩ := hdeb
  obtain ⟨b2, hb2, hk2, hpos⟩ := hcred
  have hb12 : b1 = b2 := key_unique hnd hb1 hb2 (by rw [hk1, heq, hk2])
  rw [hb12] at hneg
  linarith

/-- C10 witness: single debtor, single creditor. -/
theorem C10_no_self_payment_witness :
    (1 : Nat) ≠ 2
    ∧ (∃ b ∈ ([(1, "b", -5), (2, "a", 5)] : List Ent), b.1 = 1 ∧ b.2.2 < 0)
    ∧ (∃ b ∈ ([(1, "b", -5), (2, "a", 5)] : List Ent), b.1 = 2 ∧ 0 < b.2.2) :=
  C10_no_self_payment [(1, "b", -5), (2, "a", 5)] (by decide)
    (1, "b", 2, "a", (5 : ℚ))
    (by
      rw [show plan_from_balances [(1, "b", -5), (2, "a", 5)]
          = [(1, "b", 2, "a", (5 : ℚ))] from by
        norm_num [plan_from_balances, debtorsOf, creditorsOf, sortDesc, insertDesc,
          settleLoop, settleLoopF, eps, abs, List.filter]]
      exact List.mem_singleton.mpr rfl)

/-- C1 counterexample: three creditors of 1.0 and debtors
0.991, 0.991, 0.991, 0.025.  The balances sum to 0.002 (within `eps`), but
each of the three near-equal matches silently drops 0.009 and the 0.025
debtor is never served, so the emitted total 2.973 differs from the
positive-balance total 3.0 by 0.027 > eps. -/
theorem C1_sum_counterexample :
    |balSum [(1, "a", 1), (2, "b", 1), (3, "c", 1), (4, "d", -991/1000),
      (5, "e", -991/1000), (6, "f", -991/1000), (7, "g", -1/40)]| < eps
    ∧ eps < |txSum (plan_from_balances [(1, "a", 1), (2, "b", 1), (3, "c", 1),
        (4, "d", -991/1000), (5, "e", -991/1000), (6, "f", -991/1000), (7, "g", -1/40)])
        - posSum [(1, "a", 1), (2, "b", 1), (3, "c", 1), (4, "d", -991/1000),
          (5, "e", -991/1000), (6, "f", -991/1000), (7, "g", -1/40)]| := by
  constructor
  · norm_num [balSum, sumAmt, eps, abs]
  · norm_num [plan_from_balances, debtorsOf, creditorsOf, sortDesc, insertDesc,
      settleLoop, settleLoopF, txSum, posSum, sumAmt, eps, abs, List.filter]

/-- C1 (amended): for every balance mapping whose signed balances sum to
within `eps = 0.01` of 0, the emitted transaction total differs from the
total of the strictly positive balances by less than `eps · (n + 1)`, where
`n` is the number of emitted transactions.  (The claim's uniform `eps`
bound is false — each near-equal match can drop up to `eps` — see the
counterexample.) -/
theorem C1_sum_amended (bs : List Ent) (hsum : |balSum bs| < eps) :
    |txSum (plan_from_balances bs) - posSum bs|
      < eps * (((plan_from_balances bs).length : ℚ) + 1) := by
  unfold plan_from_balances posSum
  have hdpos : ∀ e ∈ sortDesc (debtorsOf bs), 0 ≤ e.2.2 :=
    fun e he => le_of_lt (debtorsOf_pos bs e (mem_sortDesc.mp he))
  have hcpos : ∀ e ∈ sortDesc (creditorsOf bs), 0 ≤ e.2.2 :=
    fun e he => le_of_lt (creditorsOf_pos bs e (mem_sortDesc.mp he))
  have h1 := txSum_le_sumAmt _ _ hdpos hcpos
  have h2 := sumC_sub_txSum_le _ _ hdpos hcpos
  rw [sumAmt_sortDesc] at h1
  rw [sumAmt_sortDesc, sumAmt_sortDesc] at h2
  have hbal := balSum_eq_split bs
  have habs := abs_lt.mp hsum
  have hepos := eps_pos
  have hTnn : (0 : ℚ)
      ≤ ((settleLoop (sortDesc (debtorsOf bs)) (sortDesc (creditorsOf bs))).length : ℚ) :=
    Nat.cast_nonneg _
  have hepsT : (0 : ℚ)
      ≤ eps * ((settleLoop (sortDesc (debtorsOf bs)) (sortDesc (creditorsOf bs))).length : ℚ) :=
    mul_nonneg (le_of_lt hepos) hTnn
  rw [abs_lt]
  constructor
  · rcases max_cases (sumAmt (creditorsOf bs) - sumAmt (debtorsOf bs)) 0 with
      ⟨hm, _⟩ | ⟨hm, _⟩ <;> rw [hm] at h2 <;> linarith
  · linarith

/-- C1 witness: scenario A balances, which settle exactly. -/
theorem C1_sum_amended_witness :
    |txSum (plan_from_balances [(1, "Alice", 20), (2, "Bob", -10), (3, "Carol", -10)])
        - posSum [(1, "Alice", 20), (2, "Bob", -10), (3, "Carol", -10)]|
      < eps * (((plan_from_balances
          [(1, "Alice", 20), (2, "Bob", -10), (3, "Carol", -10)]).length : ℚ) + 1) :=
  C1_sum_amended [(1, "Alice", 20), (2, "Bob", -10), (3, "Carol", -10)]
    (by norm_num [balSum, sumAmt, eps, abs])

/-- C4 counterexample: in the same input as the C1 counterexample, the
balances sum to 0.002 (within `eps`), yet debtor 7 (debt 0.025) pays
nothing at all — the creditors are exhausted by the near-equal matches —
so their outgoing total misses their debt by 0.025 > eps. -/
theorem C4_per_person_counterexample :
    |balSum [(1, "a", 1), (2, "b", 1), (3, "c", 1), (4, "d", -991/1000),
      (5, "e", -991/1000), (6, "f", -991/1000), (7, "g", -1/40)]| < eps
    ∧ (7, "g", (-1/40 : ℚ)) ∈ ([(1, "a", 1), (2, "b", 1), (3, "c", 1),
        (4, "d", -991/1000), (5, "e", -991/1000), (6, "f", -991/1000),
        (7, "g", -1/40)] : List Ent)
    ∧ eps < |outOf 7 (plan_from_balances [(1, "a", 1), (2, "b", 1), (3, "c", 1),
        (4, "d", -991/1000), (5, "e", -991/1000), (6, "f", -991/1000),
        (7, "g", -1/40)]) - (1/40 : ℚ)| := by
  refine ⟨by norm_num [balSum, sumAmt, eps, abs], by simp, ?_⟩
  norm_num [plan_from_balances, debtorsOf, creditorsOf, sortDesc, insertDesc,
    settleLoop, settleLoopF, outOf, eps, abs, List.filter]

/-- C4 (amended): for every balance mapping with distinct ids whose signed
balances sum to within `eps` of 0, each debtor's outgoing total is within
`eps · (2n + 1)` of the magnitude of their negative balance, and each
creditor's incoming total is within `eps · (2n + 1)` of their positive
balance, where `n` is the number of emitted transactions.  (The claim's
uniform `eps` bound is false — a debtor or creditor beyond the point where
the opposite list is exhausted can be left unserved — see the
counterexample.) -/
theorem C4_per_person_amended (bs : List Ent)
    (hnd : (bs.map (fun e => e.1)).Nodup) (hsum : |balSum bs| < eps) :
    ∀ b ∈ bs,
      (b.2.2 < 0 →
        |outOf b.1 (plan_from_balances bs) - (-b.2.2)|
          < eps * (2 * ((plan_from_balances bs).length : ℚ) + 1))
      ∧ (0 < b.2.2 →
        |inOf b.1 (plan_from_balances bs) - b.2.2|
          < eps * (2 * ((plan_from_balances bs).length : ℚ) + 1)) := by
  intro b hb
  unfold plan_from_balances
  have hdpos : ∀ e ∈ sortDesc (debtorsOf bs), 0 ≤ e.2.2 :=
    fun e he => le_of_lt (debtorsOf_pos bs e (mem_sortDesc.mp he))
  have hcpos : ∀ e ∈ sortDesc (creditorsOf bs), 0 ≤ e.2.2 :=
    fun e he => le_of_lt (creditorsOf_pos bs e (mem_sortDesc.mp he))
  have hbal := balSum_eq_split bs
  have habs := abs_lt.mp hsum
  have hepos := eps_pos
  have hTnn : (0 : ℚ)
      ≤ ((settleLoop (sortDesc (debtorsOf bs)) (sortDesc (creditorsOf bs))).length : ℚ) :=
    Nat.cast_nonneg _
  have hepsT : (0 : ℚ)
      ≤ eps * ((settleLoop (sortDesc (debtorsOf bs)) (sortDesc (creditorsOf bs))).length : ℚ) :=
    mul_nonneg (le_of_lt hepos) hTnn
  have h2 := sumC_sub_txSum_le _ _ hdpos hcpos
  rw [sumAmt_sortDesc, sumAmt_sortDesc] at h2
  constructor
  · intro hneg
    obtain ⟨o1, o2⟩ := outOf_bounds b.1 _ _ hdpos hcpos
    rw [amtOf_sortDesc, amtOf_debtorsOf hnd hb hneg] at o1 o2
    rw [sumAmt_sortDesc] at o2
    rw [abs_lt]
    constructor
    · rcases max_cases (sumAmt (creditorsOf bs) - sumAmt (debtorsOf bs)) 0 with
        ⟨hm, _⟩ | ⟨hm, _⟩ <;> rw [hm] at h2 <;> linarith
    · linarith
  · intro hpos
    have iu := inOf_upper b.1 _ _ hdpos hcpos
    rw [amtOf_sortDesc, amtOf_creditorsOf hnd hb hpos,
      filter_length_sortDesc, count_creditorsOf hnd hb hpos] at iu
    have il := inOf_lower b.1 _ _ hdpos hcpos
    rw [amtOf_sortDesc, amtOf_creditorsOf hnd hb hpos, sumAmt_sortDesc] at il
    rw [abs_lt]
    constructor
    · rcases max_cases (sumAmt (creditorsOf bs) - sumAmt (debtorsOf bs)) 0 with
        ⟨hm, _⟩ | ⟨hm, _⟩ <;> rw [hm] at h2 <;> linarith
    · rcases Nat.eq_zero_or_pos
        (settleLoop (sortDesc (debtorsOf bs)) (sortDesc (creditorsOf bs))).length with
        hT | hT
      · have hplan : settleLoop (sortDesc (debtorsOf bs)) (sortDesc (creditorsOf bs)) = [] :=
          List.length_eq_zero.mp hT
        rw [hplan, inOf_nil, List.length_nil]
        push_cast
        linarith
      · have hT1 : (1 : ℚ)
            ≤ ((settleLoop (sortDesc (debtorsOf bs)) (sortDesc (creditorsOf bs))).length : ℚ) := by
          exact_mod_cast hT
        push_cast at iu
        have hmul : eps * 1
            < eps * (2 * ((settleLoop (sortDesc (debtorsOf bs))
                (sortDesc (creditorsOf bs))).length : ℚ) + 1) := by
          apply mul_lt_mul_of_pos_left ?_ hepos
          linarith
        linarith

/-- C4 witness: scenario A balances; Bob's outgoing and Alice's incoming
totals. -/
theorem C4_per_person_witness :
    ((2 : Nat), "Bob", (-10 : ℚ)).2.2 < 0
    ∧ |outOf 2 (plan_from_balances [(1, "Alice", 20), (2, "Bob", -10), (3, "Carol", -10)])
        - (-((-10 : ℚ)))|
      < eps * (2 * (((plan_from_balances
          [(1, "Alice", 20), (2, "Bob", -10), (3, "Carol", -10)]).length : ℚ)) + 1) :=
  ⟨by norm_num,
    (C4_per_person_amended [(1, "Alice", 20), (2, "Bob", -10), (3, "Carol", -10)]
      (by decide) (by norm_num [balSum, sumAmt, eps, abs])
      (2, "Bob", (-10 : ℚ)) (by simp)).1 (by norm_num)⟩

end ExpenseSplitter

